import Mathlib

/-!
Verification of the DebateAgent evidence pipeline and response models.

The Python source is shallowly embedded: external collaborators (the
httpx HTTP client, the pydantic AnyUrl parser, the Tavily search client
and the structured-output completion client) are modelled as oracle
functions passed in as parameters, and every function that performs
network calls additionally returns the list of requests it issued, so
that "no network call" claims can be stated.
-/

namespace DebateAgent

/-! ## HTTP collaborator model (httpx) -/

/-- HTTP method used by the reference validator: httpx.head / httpx.get. -/
inductive Method where
  | head
  | get
deriving DecidableEq, Repr

/-- A request as issued by httpx.head / httpx.get inside
`Reference.validate_url_returns_200`: method, url, timeout (seconds),
follow_redirects flag and the User-Agent header. -/
structure HttpRequest where
  method : Method
  url : String
  timeout : Nat
  follow_redirects : Bool
  userAgent : String
deriving DecidableEq, Repr

/-- The browser User-Agent string hardcoded in models.py. -/
def browserUA : String :=
  "Mozilla/5.0 (Windows NT 10.0; Win64; x64) AppleWebKit/537.36 (KHTML, like Gecko) Chrome/120.0.0.0 Safari/537.36"

/-- The network oracle: a response is either a status code or a
request-level error (httpx.RequestError) carrying a message. -/
abbrev Fetcher := HttpRequest → Except String Nat

/-- The request built in validate_url_returns_200: 10s timeout,
follow_redirects=True, browser User-Agent. -/
def mkRequest (m : Method) (url : String) : HttpRequest :=
  { method := m, url := url, timeout := 10, follow_redirects := true,
    userAgent := browserUA }

/-! ## models.py : Reference and its url field validator -/

/-- The status classification at the end of validate_url_returns_200:
404/410 rejected as missing, any other status >= 400 except 401/403
rejected as unreachable, everything else accepted. -/
def classifyStatus (url : String) (s : Nat) : Except String Unit :=
  if s = 404 ∨ s = 410 then
    .error ("URL " ++ url ++ " returned status " ++ toString s)
  else if 400 ≤ s ∧ s ≠ 401 ∧ s ≠ 403 then
    .error ("URL " ++ url ++ " returned status " ++ toString s)
  else
    .ok ()

/-- Embedding of `Reference.validate_url_returns_200` (models.py, lines
50-85), applied to the already-parsed url string.  Issues a HEAD
request; if its status is >= 400 retries once with GET; classifies the
final status; an httpx.RequestError from either call is converted into
a rejection carrying the underlying cause.  Also returns the list of
HTTP requests issued. -/
def validate_url (fetch : Fetcher) (url : String) :
    Except String Unit × List HttpRequest :=
  match fetch (mkRequest .head url) with
  | .error e =>
      (.error ("Failed to reach URL " ++ url ++ ": " ++ e), [mkRequest .head url])
  | .ok s1 =>
      if 400 ≤ s1 then
        match fetch (mkRequest .get url) with
        | .error e =>
            (.error ("Failed to reach URL " ++ url ++ ": " ++ e),
             [mkRequest .head url, mkRequest .get url])
        | .ok s2 =>
            (classifyStatus url s2, [mkRequest .head url, mkRequest .get url])
      else
        (classifyStatus url s1, [mkRequest .head url])

/-- The status the validator ends up classifying: the HEAD status if it
is below 400, otherwise the result of the GET retry; a request error on
the relevant call is propagated. -/
def finalStatus (fetch : Fetcher) (url : String) : Except String Nat :=
  match fetch (mkRequest .head url) with
  | .error e => .error e
  | .ok s1 => if 400 ≤ s1 then fetch (mkRequest .get url) else .ok s1

/-- Decidable acceptance predicate on the final status, as the claim
states it: below 400, or 401, or 403. -/
def acceptedStatus (s : Nat) : Prop := s < 400 ∨ s = 401 ∨ s = 403

instance (s : Nat) : Decidable (acceptedStatus s) := by
  unfold acceptedStatus; infer_instance

/-- C1: for every Reference url, validation issues an HTTP HEAD request
with a 10-second timeout, browser user-agent and redirect following;
it retries once with a full GET exactly when the HEAD response status
is >= 400; and it accepts exactly when the final status is below 400
or is 401 or 403 (rejecting 404/410, all other >= 400 statuses, and
network-level request errors, whose cause is attached). -/
theorem validate_url_spec (fetch : Fetcher) (url : String) :
    (∀ r ∈ (validate_url fetch url).2,
        r.timeout = 10 ∧ r.follow_redirects = true ∧ r.userAgent = browserUA ∧
        r.url = url)
    ∧ (validate_url fetch url).2.head? = some (mkRequest .head url)
    ∧ ((validate_url fetch url).2 =
          [mkRequest .head url, mkRequest .get url] ↔
        ∃ s, fetch (mkRequest .head url) = .ok s ∧ 400 ≤ s)
    ∧ ((validate_url fetch url).1 = .ok () ↔
        ∃ s, finalStatus fetch url = .ok s ∧ acceptedStatus s)
    ∧ (∀ e, finalStatus fetch url = .error e →
        (validate_url fetch url).1 =
          .error ("Failed to reach URL " ++ url ++ ": " ++ e)) := by
  have hclass : ∀ s : Nat, classifyStatus url s = .ok () ↔ acceptedStatus s := by
    intro s
    unfold classifyStatus acceptedStatus
    by_cases h44 : s = 404 ∨ s = 410
    · rw [if_pos h44]
      exact iff_of_false (by simp) (by omega)
    · rw [if_neg h44]
      by_cases hrej : 400 ≤ s ∧ s ≠ 401 ∧ s ≠ 403
      · rw [if_pos hrej]
        exact iff_of_false (by simp) (by omega)
      · rw [if_neg hrej]
        exact iff_of_true rfl (by omega)
  unfold validate_url finalStatus
  cases hh : fetch (mkRequest .head url) with
  | error e =>
      refine ⟨by simp [mkRequest], by simp, ?_, ?_, ?_⟩
      · constructor
        · intro h; exact absurd h (by simp)
        · rintro ⟨s, hs, _⟩; exact absurd hs (by simp)
      · constructor
        · intro h; exact absurd h (by simp)
        · rintro ⟨s, hs, _⟩; exact absurd hs (by simp)
      · intro e' he'
        have : e = e' := by simpa using he'
        subst this; rfl
  | ok s1 =>
      by_cases h1 : 400 ≤ s1
      · simp only [h1, if_true]
        cases hg : fetch (mkRequest .get url) with
        | error e =>
            refine ⟨by simp [mkRequest], by simp, ?_, ?_, ?_⟩
            · exact iff_of_true rfl ⟨s1, rfl, h1⟩
            · constructor
              · intro h; exact absurd h (by simp)
              · rintro ⟨s, hs, _⟩; exact absurd hs (by simp)
            · intro e' he'
              have : e = e' := by simpa using he'
              subst this; rfl
        | ok s2 =>
            refine ⟨by simp [mkRequest], by simp, ?_, ?_, ?_⟩
            · exact iff_of_true rfl ⟨s1, rfl, h1⟩
            · constructor
              · intro hok
                exact ⟨s2, rfl, (hclass s2).mp hok⟩
              · rintro ⟨s, hs, hacc⟩
                have hs2 : s2 = s := by simpa using hs
                subst hs2
                exact (hclass s2).mpr hacc
            · intro e' he'; exact absurd he' (by simp)
      · simp only [h1, if_false]
        refine ⟨by simp [mkRequest], by simp, ?_, ?_, ?_⟩
        · constructor
          · intro h; simp at h
          · rintro ⟨s, hs, hge⟩
            have : s1 = s := by simpa using hs
            omega
        · constructor
          · intro hok
            exact ⟨s1, rfl, (hclass s1).mp hok⟩
          · rintro ⟨s, hs, hacc⟩
            have hs1 : s1 = s := by simpa using hs
            subst hs1
            exact (hclass s1).mpr hacc
        · intro e' he'; exact absurd he' (by simp)

/-! ## models.py : Reference construction (AnyUrl parse, then url validator)

Pydantic parses the `url` field as an `AnyUrl` before the field
validator runs; the parser is an external collaborator, modelled as an
oracle returning the normalized url string, or `none` when the input
does not parse as a URL. -/

/-- Raw input data for a `Reference` before pydantic validation. -/
structure RawReference where
  title : Option String
  url : String
deriving DecidableEq, Repr

/-- A validated `Reference` (models.py, lines 46-48): optional title and
the (parsed, rendered back to a string) url. -/
structure Reference where
  title : Option String
  url : String
deriving DecidableEq, Repr

/-- Constructing a `Reference`: the url is first parsed as an AnyUrl
(oracle `parse`); only if that succeeds does the reachability validator
`validate_url_returns_200` run on the parsed url.  Returns the result
together with the HTTP requests issued. -/
def mkReference (parse : String → Option String) (fetch : Fetcher)
    (raw : RawReference) : Except String Reference × List HttpRequest :=
  match parse raw.url with
  | none => (.error ("Input is not a valid URL: " ++ raw.url), [])
  | some u =>
      match validate_url fetch u with
      | (.ok _, log) => (.ok ⟨raw.title, u⟩, log)
      | (.error e, log) => (.error e, log)

/-! ## models.py : ReferencedParagraph / ReferencedParagraphs -/

/-- models.py, lines 88-90: a paragraph with text and a list of
references; the references field has `default_factory=list`. -/
structure ReferencedParagraph where
  text : String
  references : List Reference
deriving DecidableEq, Repr

/-- Constructing a standalone `ReferencedParagraph`: the references
field is optional, defaulting to the empty list; the model itself has
no validator, so construction always succeeds. -/
def mkReferencedParagraph (text : String)
    (references : Option (List Reference)) : ReferencedParagraph :=
  ⟨text, references.getD []⟩

/-- models.py, lines 93-94. -/
structure ReferencedParagraphs where
  paragraphs : List ReferencedParagraph
deriving DecidableEq, Repr

/-- Inner loop of `ensure_unique_urls_across_paragraphs`: walk one
paragraph's references, rejecting a url already seen and accumulating
the rest into the seen set (modelled as a list). -/
def checkRefs (seen : List String) : List Reference → Except String (List String)
  | [] => .ok seen
  | r :: rs =>
      if r.url ∈ seen then
        .error ("Duplicate reference URL across paragraphs is not allowed: " ++ r.url)
      else
        checkRefs (r.url :: seen) rs

/-- Outer loop of `ensure_unique_urls_across_paragraphs` (models.py,
lines 96-109): each paragraph must have a non-empty references list,
and every url across all paragraphs must be fresh. -/
def checkParas (seen : List String) : List ReferencedParagraph → Except String (List String)
  | [] => .ok seen
  | p :: ps =>
      if p.references = [] then
        .error "references must not be empty"
      else
        match checkRefs seen p.references with
        | .error e => .error e
        | .ok seen2 => checkParas seen2 ps

/-- Constructing a `ReferencedParagraphs` from already-validated
paragraphs: the after-model validator runs and either rejects or
returns the model unchanged. -/
def mkReferencedParagraphs (ps : List ReferencedParagraph) :
    Except String ReferencedParagraphs :=
  match checkParas [] ps with
  | .error e => .error e
  | .ok _ => .ok ⟨ps⟩

/-! ## models.py : evidence-based models -/

/-- models.py, lines 112-116: url is a plain `str` field with no
validator of any kind. -/
structure EvidenceBasedReference where
  url : String
  title : Option String
  supporting_claim : String
deriving DecidableEq, Repr

/-- Constructing an `EvidenceBasedReference`: the model declares no
field or model validator, so pydantic accepts every string url. -/
def mkEvidenceBasedReference (url : String) (title : Option String)
    (supporting_claim : String) : Except String EvidenceBasedReference :=
  .ok ⟨url, title, supporting_claim⟩

/-- models.py, lines 119-125. -/
structure EvidenceBasedParagraph where
  text : String
  references : List EvidenceBasedReference
deriving DecidableEq, Repr

/-- Constructing an `EvidenceBasedParagraph`: the references field
carries `min_length=1`. -/
def mkEvidenceBasedParagraph (text : String)
    (references : List EvidenceBasedReference) :
    Except String EvidenceBasedParagraph :=
  if 1 ≤ references.length then .ok ⟨text, references⟩
  else .error "references: List should have at least 1 item"

/-- models.py, lines 128-130. -/
structure EvidenceBasedResponse where
  paragraphs : List EvidenceBasedParagraph
deriving DecidableEq, Repr

/-- Inner loop of the evidence-based
`ensure_unique_urls_across_paragraphs` (models.py, lines 132-142):
urls only, no emptiness check at this level. -/
def checkEvRefs (seen : List String) :
    List EvidenceBasedReference → Except String (List String)
  | [] => .ok seen
  | r :: rs =>
      if r.url ∈ seen then
        .error ("Duplicate reference URL across paragraphs: " ++ r.url)
      else
        checkEvRefs (r.url :: seen) rs

/-- Outer loop of the evidence-based uniqueness validator. -/
def checkEvParas (seen : List String) :
    List EvidenceBasedParagraph → Except String (List String)
  | [] => .ok seen
  | p :: ps =>
      match checkEvRefs seen p.references with
      | .error e => .error e
      | .ok seen2 => checkEvParas seen2 ps

/-- Constructing an `EvidenceBasedResponse` from already-validated
paragraphs: the after-model validator checks global url uniqueness. -/
def mkEvidenceBasedResponse (ps : List EvidenceBasedParagraph) :
    Except String EvidenceBasedResponse :=
  match checkEvParas [] ps with
  | .error e => .error e
  | .ok _ => .ok ⟨ps⟩

/-! ## Url collections -/

/-- The urls cited by one paragraph, in order. -/
def paragraphUrls (p : ReferencedParagraph) : List String :=
  p.references.map Reference.url

/-- All urls cited across a list of paragraphs, in traversal order. -/
def allUrls (ps : List ReferencedParagraph) : List String :=
  ps.flatMap paragraphUrls

/-- The urls cited by one evidence-based paragraph, in order. -/
def evParagraphUrls (p : EvidenceBasedParagraph) : List String :=
  p.references.map EvidenceBasedReference.url

/-- All urls cited across a list of evidence-based paragraphs. -/
def allEvUrls (ps : List EvidenceBasedParagraph) : List String :=
  ps.flatMap evParagraphUrls

/-! ## Lemmas about the uniqueness validators -/

theorem exists_error_of_not_ok {α : Type} {x : Except String α}
    (h : ¬ ∃ a, x = .ok a) : ∃ e, x = .error e := by
  cases x with
  | error e => exact ⟨e, rfl⟩
  | ok a => exact absurd ⟨a, rfl⟩ h

theorem checkRefs_ok_of (seen : List String) (rs : List Reference)
    (h1 : (rs.map Reference.url).Nodup)
    (h2 : ∀ u ∈ rs.map Reference.url, u ∉ seen) :
    checkRefs seen rs = .ok ((rs.map Reference.url).reverse ++ seen) := by
  induction rs generalizing seen with
  | nil => simp [checkRefs]
  | cons r rs ih =>
      rw [List.map_cons, List.nodup_cons] at h1
      have hnotin : r.url ∉ seen :=
        h2 r.url (List.mem_map_of_mem Reference.url (List.mem_cons_self r rs))
      have h2' : ∀ u ∈ rs.map Reference.url, u ∉ r.url :: seen := by
        intro u hu
        simp only [List.mem_cons]
        push_neg
        refine ⟨fun he => h1.1 (he ▸ hu), ?_⟩
        exact h2 u (by rw [List.map_cons]; exact List.mem_cons_of_mem _ hu)
      simp only [checkRefs, if_neg hnotin]
      rw [ih (r.url :: seen) h1.2 h2']
      simp

theorem of_checkRefs_ok (seen s' : List String) (rs : List Reference)
    (h : checkRefs seen rs = .ok s') :
    (rs.map Reference.url).Nodup ∧ (∀ u ∈ rs.map Reference.url, u ∉ seen) ∧
      s' = (rs.map Reference.url).reverse ++ seen := by
  induction rs generalizing seen with
  | nil =>
      simp only [checkRefs, Except.ok.injEq] at h
      simp [h]
  | cons r rs ih =>
      by_cases hm : r.url ∈ seen
      · simp [checkRefs, hm] at h
      · simp only [checkRefs, if_neg hm] at h
        obtain ⟨h1, h2, h3⟩ := ih (r.url :: seen) h
        refine ⟨?_, ?_, ?_⟩
        · simp only [List.map_cons, List.nodup_cons]
          exact ⟨fun hin => (h2 _ hin) (by simp), h1⟩
        · intro u hu
          simp only [List.map_cons, List.mem_cons] at hu
          rcases hu with rfl | hu
          · exact hm
          · intro hus; exact (h2 u hu) (by simp [hus])
        · rw [h3]; simp

theorem allUrls_cons (p : ReferencedParagraph) (ps : List ReferencedParagraph) :
    allUrls (p :: ps) = paragraphUrls p ++ allUrls ps := by
  simp [allUrls]

theorem checkParas_ok_of (seen : List String) (ps : List ReferencedParagraph)
    (hne : ∀ p ∈ ps, p.references ≠ [])
    (h1 : (allUrls ps).Nodup)
    (h2 : ∀ u ∈ allUrls ps, u ∉ seen) :
    checkParas seen ps = .ok ((allUrls ps).reverse ++ seen) := by
  induction ps generalizing seen with
  | nil => simp [checkParas, allUrls]
  | cons p ps ih =>
      rw [allUrls_cons] at h1 h2 ⊢
      have hp := List.nodup_append.mp h1
      have hpne : ¬ p.references = [] := hne p (by simp)
      simp only [checkParas, if_neg hpne]
      have hcr : checkRefs seen p.references =
          .ok ((paragraphUrls p).reverse ++ seen) :=
        checkRefs_ok_of seen p.references hp.1
          (fun u hu => h2 u (List.mem_append_left _ hu))
      rw [hcr]
      show checkParas ((paragraphUrls p).reverse ++ seen) ps = _
      have h2' : ∀ u ∈ allUrls ps, u ∉ (paragraphUrls p).reverse ++ seen := by
        intro u hu
        simp only [List.mem_append, List.mem_reverse]
        push_neg
        exact ⟨fun hin => hp.2.2 hin hu, h2 u (List.mem_append_right _ hu)⟩
      rw [ih ((paragraphUrls p).reverse ++ seen)
            (fun q hq => hne q (List.mem_cons_of_mem _ hq)) hp.2.1 h2']
      simp

theorem of_checkParas_ok (seen s' : List String) (ps : List ReferencedParagraph)
    (h : checkParas seen ps = .ok s') :
    (∀ p ∈ ps, p.references ≠ []) ∧ (allUrls ps).Nodup ∧
      (∀ u ∈ allUrls ps, u ∉ seen) ∧ s' = (allUrls ps).reverse ++ seen := by
  induction ps generalizing seen with
  | nil =>
      simp only [checkParas, Except.ok.injEq] at h
      simp [allUrls, h]
  | cons p ps ih =>
      by_cases hpne : p.references = []
      · simp [checkParas, hpne] at h
      · simp only [checkParas, if_neg hpne] at h
        cases hcr : checkRefs seen p.references with
        | error e => rw [hcr] at h; exact absurd h (by simp)
        | ok seen2 =>
            rw [hcr] at h
            have h' : checkParas seen2 ps = .ok s' := h
            obtain ⟨hr1, hr2, hr3⟩ := of_checkRefs_ok seen seen2 p.references hcr
            obtain ⟨hq1, hq2, hq3, hq4⟩ := ih seen2 h'
            have hdisj : (paragraphUrls p).Disjoint (allUrls ps) := by
              intro u hup hups
              refine hq3 u hups ?_
              rw [hr3]
              exact List.mem_append_left _ (List.mem_reverse.mpr hup)
            refine ⟨?_, ?_, ?_, ?_⟩
            · intro q hq
              rcases List.mem_cons.mp hq with rfl | hq
              · exact hpne
              · exact hq1 q hq
            · rw [allUrls_cons]
              exact List.nodup_append.mpr ⟨hr1, hq2, hdisj⟩
            · intro u hu
              rw [allUrls_cons] at hu
              rcases List.mem_append.mp hu with hu | hu
              · exact hr2 u hu
              · intro hus
                exact hq3 u hu (by rw [hr3]; exact List.mem_append_right _ hus)
            · rw [hq4, hr3, allUrls_cons]
              simp [paragraphUrls]

theorem mkReferencedParagraphs_ok_iff (ps : List ReferencedParagraph) :
    (∃ r, mkReferencedParagraphs ps = .ok r) ↔
      ((∀ p ∈ ps, p.references ≠ []) ∧ (allUrls ps).Nodup) := by
  constructor
  · rintro ⟨r, hr⟩
    unfold mkReferencedParagraphs at hr
    cases hcp : checkParas [] ps with
    | error e => rw [hcp] at hr; exact absurd hr (by simp)
    | ok s =>
        obtain ⟨hne, h1, _, _⟩ := of_checkParas_ok [] s ps hcp
        exact ⟨hne, h1⟩
  · rintro ⟨hne, h1⟩
    refine ⟨⟨ps⟩, ?_⟩
    unfold mkReferencedParagraphs
    rw [checkParas_ok_of [] ps hne h1 (by simp)]

theorem mkReferencedParagraphs_ok_val (ps : List ReferencedParagraph)
    (r : ReferencedParagraphs) (h : mkReferencedParagraphs ps = .ok r) :
    r = ⟨ps⟩ := by
  unfold mkReferencedParagraphs at h
  cases hcp : checkParas [] ps with
  | error e => rw [hcp] at h; exact absurd h (by simp)
  | ok s => rw [hcp] at h; simpa using h.symm

theorem checkEvRefs_ok_of (seen : List String) (rs : List EvidenceBasedReference)
    (h1 : (rs.map EvidenceBasedReference.url).Nodup)
    (h2 : ∀ u ∈ rs.map EvidenceBasedReference.url, u ∉ seen) :
    checkEvRefs seen rs = .ok ((rs.map EvidenceBasedReference.url).reverse ++ seen) := by
  induction rs generalizing seen with
  | nil => simp [checkEvRefs]
  | cons r rs ih =>
      rw [List.map_cons, List.nodup_cons] at h1
      have hnotin : r.url ∉ seen :=
        h2 r.url (List.mem_map_of_mem EvidenceBasedReference.url (List.mem_cons_self r rs))
      have h2' : ∀ u ∈ rs.map EvidenceBasedReference.url, u ∉ r.url :: seen := by
        intro u hu
        simp only [List.mem_cons]
        push_neg
        refine ⟨fun he => h1.1 (he ▸ hu), ?_⟩
        exact h2 u (by rw [List.map_cons]; exact List.mem_cons_of_mem _ hu)
      simp only [checkEvRefs, if_neg hnotin]
      rw [ih (r.url :: seen) h1.2 h2']
      simp

theorem of_checkEvRefs_ok (seen s' : List String) (rs : List EvidenceBasedReference)
    (h : checkEvRefs seen rs = .ok s') :
    (rs.map EvidenceBasedReference.url).Nodup ∧
      (∀ u ∈ rs.map EvidenceBasedReference.url, u ∉ seen) ∧
      s' = (rs.map EvidenceBasedReference.url).reverse ++ seen := by
  induction rs generalizing seen with
  | nil =>
      simp only [checkEvRefs, Except.ok.injEq] at h
      simp [h]
  | cons r rs ih =>
      by_cases hm : r.url ∈ seen
      · simp [checkEvRefs, hm] at h
      · simp only [checkEvRefs, if_neg hm] at h
        obtain ⟨h1, h2, h3⟩ := ih (r.url :: seen) h
        refine ⟨?_, ?_, ?_⟩
        · simp only [List.map_cons, List.nodup_cons]
          exact ⟨fun hin => (h2 _ hin) (by simp), h1⟩
        · intro u hu
          simp only [List.map_cons, List.mem_cons] at hu
          rcases hu with rfl | hu
          · exact hm
          · intro hus; exact (h2 u hu) (by simp [hus])
        · rw [h3]; simp

theorem allEvUrls_cons (p : EvidenceBasedParagraph) (ps : List EvidenceBasedParagraph) :
    allEvUrls (p :: ps) = evParagraphUrls p ++ allEvUrls ps := by
  simp [allEvUrls]

theorem checkEvParas_ok_of (seen : List String) (ps : List EvidenceBasedParagraph)
    (h1 : (allEvUrls ps).Nodup)
    (h2 : ∀ u ∈ allEvUrls ps, u ∉ seen) :
    checkEvParas seen ps = .ok ((allEvUrls ps).reverse ++ seen) := by
  induction ps generalizing seen with
  | nil => simp [checkEvParas, allEvUrls]
  | cons p ps ih =>
      rw [allEvUrls_cons] at h1 h2 ⊢
      have hp := List.nodup_append.mp h1
      simp only [checkEvParas]
      have hcr : checkEvRefs seen p.references =
          .ok ((evParagraphUrls p).reverse ++ seen) :=
        checkEvRefs_ok_of seen p.references hp.1
          (fun u hu => h2 u (List.mem_append_left _ hu))
      rw [hcr]
      show checkEvParas ((evParagraphUrls p).reverse ++ seen) ps = _
      have h2' : ∀ u ∈ allEvUrls ps, u ∉ (evParagraphUrls p).reverse ++ seen := by
        intro u hu
        simp only [List.mem_append, List.mem_reverse]
        push_neg
        exact ⟨fun hin => hp.2.2 hin hu, h2 u (List.mem_append_right _ hu)⟩
      rw [ih ((evParagraphUrls p).reverse ++ seen) hp.2.1 h2']
      simp

theorem of_checkEvParas_ok (seen s' : List String) (ps : List EvidenceBasedParagraph)
    (h : checkEvParas seen ps = .ok s') :
    (allEvUrls ps).Nodup ∧ (∀ u ∈ allEvUrls ps, u ∉ seen) ∧
      s' = (allEvUrls ps).reverse ++ seen := by
  induction ps generalizing seen with
  | nil =>
      simp only [checkEvParas, Except.ok.injEq] at h
      simp [allEvUrls, h]
  | cons p ps ih =>
      simp only [checkEvParas] at h
      cases hcr : checkEvRefs seen p.references with
      | error e => rw [hcr] at h; exact absurd h (by simp)
      | ok seen2 =>
          rw [hcr] at h
          have h' : checkEvParas seen2 ps = .ok s' := h
          obtain ⟨hr1, hr2, hr3⟩ := of_checkEvRefs_ok seen seen2 p.references hcr
          obtain ⟨hq1, hq2, hq3⟩ := ih seen2 h'
          have hdisj : (evParagraphUrls p).Disjoint (allEvUrls ps) := by
            intro u hup hups
            refine hq2 u hups ?_
            rw [hr3]
            exact List.mem_append_left _ (List.mem_reverse.mpr hup)
          refine ⟨?_, ?_, ?_⟩
          · rw [allEvUrls_cons]
            exact List.nodup_append.mpr ⟨hr1, hq1, hdisj⟩
          · intro u hu
            rw [allEvUrls_cons] at hu
            rcases List.mem_append.mp hu with hu | hu
            · exact hr2 u hu
            · intro hus
              exact hq2 u hu (by rw [hr3]; exact List.mem_append_right _ hus)
          · rw [hq3, hr3, allEvUrls_cons]
            simp [evParagraphUrls]

theorem mkEvidenceBasedResponse_ok_iff (ps : List EvidenceBasedParagraph) :
    (∃ r, mkEvidenceBasedResponse ps = .ok r) ↔ (allEvUrls ps).Nodup := by
  constructor
  · rintro ⟨r, hr⟩
    unfold mkEvidenceBasedResponse at hr
    cases hcp : checkEvParas [] ps with
    | error e => rw [hcp] at hr; exact absurd hr (by simp)
    | ok s =>
        obtain ⟨h1, _, _⟩ := of_checkEvParas_ok [] s ps hcp
        exact h1
  · intro h1
    refine ⟨⟨ps⟩, ?_⟩
    unfold mkEvidenceBasedResponse
    rw [checkEvParas_ok_of [] ps h1 (by simp)]

theorem mkEvidenceBasedResponse_ok_val (ps : List EvidenceBasedParagraph)
    (r : EvidenceBasedResponse) (h : mkEvidenceBasedResponse ps = .ok r) :
    r = ⟨ps⟩ := by
  unfold mkEvidenceBasedResponse at h
  cases hcp : checkEvParas [] ps with
  | error e => rw [hcp] at h; exact absurd h (by simp)
  | ok s => rw [hcp] at h; simpa using h.symm

/-! ## Full pydantic construction pipelines (raw data in, validated model out)

Pydantic validates fields first (building every `Reference`, including
its url parse and reachability check) and only then runs the
after-model validator; any failure anywhere rejects the whole model. -/

/-- Raw input for a `ReferencedParagraph` before validation. -/
structure RawParagraph where
  text : String
  references : List RawReference
deriving DecidableEq, Repr

/-- Build every reference of one paragraph; the first failure rejects
the whole list. -/
def buildRefs (parse : String → Option String) (fetch : Fetcher) :
    List RawReference → Except String (List Reference)
  | [] => .ok []
  | r :: rs =>
      match (mkReference parse fetch r).1 with
      | .error e => .error e
      | .ok ref =>
          match buildRefs parse fetch rs with
          | .error e => .error e
          | .ok refs => .ok (ref :: refs)

/-- Build every paragraph (field validation of `ReferencedParagraphs`). -/
def buildParas (parse : String → Option String) (fetch : Fetcher) :
    List RawParagraph → Except String (List ReferencedParagraph)
  | [] => .ok []
  | p :: ps =>
      match buildRefs parse fetch p.references with
      | .error e => .error e
      | .ok refs =>
          match buildParas parse fetch ps with
          | .error e => .error e
          | .ok rest => .ok (⟨p.text, refs⟩ :: rest)

/-- Constructing a `ReferencedParagraphs` from raw data: field
validation of every paragraph and reference, then the after-model
uniqueness/non-emptiness validator. -/
def mkReferencedParagraphsRaw (parse : String → Option String) (fetch : Fetcher)
    (raws : List RawParagraph) : Except String ReferencedParagraphs :=
  match buildParas parse fetch raws with
  | .error e => .error e
  | .ok ps => mkReferencedParagraphs ps

/-- Raw input for an `EvidenceBasedParagraph` before validation (its
references are plain data, validated trivially). -/
structure RawEvidenceParagraph where
  text : String
  references : List EvidenceBasedReference
deriving DecidableEq, Repr

/-- Build every evidence-based paragraph (field validation of
`EvidenceBasedResponse`, enforcing `min_length=1`). -/
def buildEvParas : List RawEvidenceParagraph → Except String (List EvidenceBasedParagraph)
  | [] => .ok []
  | p :: ps =>
      match mkEvidenceBasedParagraph p.text p.references with
      | .error e => .error e
      | .ok q =>
          match buildEvParas ps with
          | .error e => .error e
          | .ok rest => .ok (q :: rest)

/-- Constructing an `EvidenceBasedResponse` from raw data. -/
def mkEvidenceBasedResponseRaw (raws : List RawEvidenceParagraph) :
    Except String EvidenceBasedResponse :=
  match buildEvParas raws with
  | .error e => .error e
  | .ok ps => mkEvidenceBasedResponse ps

theorem of_buildRefs_ok (parse : String → Option String) (fetch : Fetcher)
    (rs : List RawReference) (refs : List Reference)
    (h : buildRefs parse fetch rs = .ok refs) :
    refs.length = rs.length ∧
      ∀ r ∈ rs, ∃ ref, (mkReference parse fetch r).1 = .ok ref := by
  induction rs generalizing refs with
  | nil =>
      simp only [buildRefs, Except.ok.injEq] at h
      simp [← h]
  | cons r rs ih =>
      simp only [buildRefs] at h
      cases hm : (mkReference parse fetch r).1 with
      | error e => rw [hm] at h; exact absurd h (by simp)
      | ok ref =>
          rw [hm] at h
          cases hb : buildRefs parse fetch rs with
          | error e => rw [hb] at h; exact absurd h (by simp)
          | ok rest =>
              rw [hb] at h
              have hr : refs = ref :: rest := by simpa using h.symm
              obtain ⟨hlen, hall⟩ := ih rest hb
              subst hr
              refine ⟨by simp [hlen], ?_⟩
              intro q hq
              rcases List.mem_cons.mp hq with rfl | hq
              · exact ⟨ref, hm⟩
              · exact hall q hq

theorem buildRefs_ok_of (parse : String → Option String) (fetch : Fetcher)
    (rs : List RawReference)
    (h : ∀ r ∈ rs, ∃ ref, (mkReference parse fetch r).1 = .ok ref) :
    ∃ refs, buildRefs parse fetch rs = .ok refs := by
  induction rs with
  | nil => exact ⟨[], rfl⟩
  | cons r rs ih =>
      obtain ⟨ref, href⟩ := h r (List.mem_cons_self r rs)
      obtain ⟨rest, hrest⟩ := ih (fun q hq => h q (List.mem_cons_of_mem _ hq))
      refine ⟨ref :: rest, ?_⟩
      simp only [buildRefs]
      rw [href, hrest]

theorem of_buildParas_ok (parse : String → Option String) (fetch : Fetcher)
    (raws : List RawParagraph) (ps : List ReferencedParagraph)
    (h : buildParas parse fetch raws = .ok ps) :
    ps.length = raws.length ∧
      ∀ p ∈ raws, ∀ r ∈ p.references, ∃ ref, (mkReference parse fetch r).1 = .ok ref := by
  induction raws generalizing ps with
  | nil =>
      simp only [buildParas, Except.ok.injEq] at h
      simp [← h]
  | cons p raws ih =>
      simp only [buildParas] at h
      cases hb : buildRefs parse fetch p.references with
      | error e => rw [hb] at h; exact absurd h (by simp)
      | ok refs =>
          rw [hb] at h
          cases hp : buildParas parse fetch raws with
          | error e => rw [hp] at h; exact absurd h (by simp)
          | ok rest =>
              rw [hp] at h
              have hps : ps = ⟨p.text, refs⟩ :: rest := by simpa using h.symm
              obtain ⟨hlen, hall⟩ := ih rest hp
              obtain ⟨_, hrefs⟩ := of_buildRefs_ok parse fetch p.references refs hb
              subst hps
              refine ⟨by simp [hlen], ?_⟩
              intro q hq
              rcases List.mem_cons.mp hq with rfl | hq
              · exact hrefs
              · exact hall q hq

theorem buildParas_error_of (parse : String → Option String) (fetch : Fetcher)
    (raws : List RawParagraph)
    (h : ∃ p ∈ raws, ∃ r ∈ p.references, ∃ e, (mkReference parse fetch r).1 = .error e) :
    ∃ e, buildParas parse fetch raws = .error e := by
  apply exists_error_of_not_ok
  rintro ⟨ps, hps⟩
  obtain ⟨p, hp, r, hr, e, he⟩ := h
  obtain ⟨_, hall⟩ := of_buildParas_ok parse fetch raws ps hps
  obtain ⟨ref, href⟩ := hall p hp r hr
  rw [he] at href
  exact absurd href (by simp)

theorem of_buildEvParas_ok (raws : List RawEvidenceParagraph)
    (ps : List EvidenceBasedParagraph)
    (h : buildEvParas raws = .ok ps) :
    ps.length = raws.length ∧
      (∀ q ∈ ps, 1 ≤ q.references.length) ∧
      ∀ p ∈ raws, p.references ≠ [] := by
  induction raws generalizing ps with
  | nil =>
      simp only [buildEvParas, Except.ok.injEq] at h
      simp [← h]
  | cons p raws ih =>
      simp only [buildEvParas] at h
      unfold mkEvidenceBasedParagraph at h
      by_cases hn : 1 ≤ p.references.length
      · rw [if_pos hn] at h
        cases hp : buildEvParas raws with
        | error e => rw [hp] at h; exact absurd h (by simp)
        | ok rest =>
            rw [hp] at h
            have hps : ps = ⟨p.text, p.references⟩ :: rest := by simpa using h.symm
            obtain ⟨hlen, hall, hne⟩ := ih rest hp
            subst hps
            refine ⟨by simp [hlen], ?_, ?_⟩
            · intro q hq
              rcases List.mem_cons.mp hq with rfl | hq
              · exact hn
              · exact hall q hq
            · intro q hq
              rcases List.mem_cons.mp hq with rfl | hq
              · intro hqe
                rw [hqe] at hn
                simp at hn
              · exact hne q hq
      · rw [if_neg hn] at h
        exact absurd h (by simp)

/-! ## evidence.py : data model -/

/-- evidence.py, lines 19-24: a single Tavily search result.  The
float `score` is modelled as a rational. -/
structure SearchResult where
  title : String
  url : String
  content : String
  score : Rat
deriving DecidableEq, Repr

/-- evidence.py, lines 27-33. -/
structure SourceSummary where
  url : String
  title : String
  summary : String
  key_claims : List String
  relevance_to_topic : String
deriving DecidableEq, Repr

/-- evidence.py, lines 36-39. -/
structure GatheredEvidence where
  query_used : String
  sources : List SourceSummary
deriving DecidableEq, Repr

/-! ## evidence.py : search_web_for_evidence (Source Acquirer) -/

/-- The parameters `search_web_for_evidence` passes to
`TavilyClient.search` (evidence.py, lines 72-90). -/
structure TavilySearchRequest where
  query : String
  search_depth : String
  max_results : Nat
  include_raw_content : Bool
  include_domains : List String
deriving DecidableEq, Repr

/-- The Tavily search provider, modelled as an oracle from a request
to the list of results. -/
abbrev TavilyOracle := TavilySearchRequest → List SearchResult

/-- The fixed allow-list of domains (evidence.py, lines 77-89). -/
def includeDomains : List String :=
  ["ncbi.nlm.nih.gov", "pubmed.ncbi.nlm.nih.gov", "nhtsa.gov", "who.int",
   "gov", "edu", "wikipedia.org", "sciencedirect.com", "nature.com",
   "bmj.com", "thelancet.com"]

/-- The side-specific query built by `search_web_for_evidence`
(evidence.py, lines 65-68). -/
def acquirerQuery (motion side : String) : String :=
  if side = "pro" then
    "arguments supporting: " ++ motion ++ " evidence research studies"
  else
    "arguments against: " ++ motion ++ " evidence research studies criticism"

/-- Embedding of `search_web_for_evidence` (evidence.py, lines 42-102):
builds the side-specific query, issues one Tavily search with depth
"advanced", no raw content and the fixed domain allow-list, and
returns the results together with the issued request.  The api key
only selects the client and is omitted; `max_results` defaults to 8 at
the call site in `gather_evidence`. -/
def search_web_for_evidence (tavily : TavilyOracle) (motion side : String)
    (max_results : Nat) : List SearchResult × List TavilySearchRequest :=
  let req : TavilySearchRequest :=
    { query := acquirerQuery motion side, search_depth := "advanced",
      max_results := max_results, include_raw_content := false,
      include_domains := includeDomains }
  (tavily req, [req])

/-! ## evidence.py : summarize_sources (Source Summarizer) -/

/-- The parameters `summarize_sources` passes to the structured-output
completion call (evidence.py, lines 145-155).  The system-prompt text
is elided; `user` carries the concatenated sources context. -/
structure CompletionCall where
  model : String
  system : String
  user : String
  temperature : Rat
  max_tokens : Nat
  max_retries : Nat
deriving DecidableEq, Repr

/-- The motion/side-bearing part of the system prompt built by
`summarize_sources` (evidence.py, lines 127-138); the fixed
instruction text around it is elided. -/
def summarizerSystemContext (motion side : String) : String :=
  "Motion: " ++ motion ++ "\nSide being argued: " ++ side

/-- The completion provider, modelled as an oracle from a call to the
parsed `sources` list of the structured response. -/
abbrev LlmOracle := CompletionCall → List SourceSummary

/-- The concatenated sources context built by `summarize_sources`
(evidence.py, lines 122-125). -/
def sourcesText (results : List SearchResult) : String :=
  String.intercalate "\n\n" (results.enum.map (fun ir =>
    "Source " ++ toString (ir.1 + 1) ++ ":\nTitle: " ++ ir.2.title ++
    "\nURL: " ++ ir.2.url ++ "\nContent: " ++ ir.2.content))

/-- Embedding of `summarize_sources` (evidence.py, lines 105-157): an
empty result list short-circuits to an empty output with no model
call; otherwise one completion call is issued (temperature 0.1,
max_tokens 2000, max_retries 2) and its sources are returned.  Also
returns the list of completion calls issued. -/
def summarize_sources (llm : LlmOracle) (search_results : List SearchResult)
    (motion side model : String) : List SourceSummary × List CompletionCall :=
  if search_results = [] then ([], [])
  else
    let call : CompletionCall :=
      { model := model, system := summarizerSystemContext motion side,
        user := sourcesText search_results,
        temperature := 1/10, max_tokens := 2000, max_retries := 2 }
    (llm call, [call])

/-! ## evidence.py : gather_evidence (Evidence Gatherer) -/

/-- The network calls issued during one run of `gather_evidence`. -/
structure EvidenceEffects where
  tavilyCalls : List TavilySearchRequest
  llmCalls : List CompletionCall
deriving DecidableEq, Repr

/-- The query string `gather_evidence` itself builds and stores in
`query_used` (evidence.py, lines 184-187) — note it carries no
" evidence research studies" suffix, unlike `acquirerQuery`. -/
def gatherQuery (motion side : String) : String :=
  if side = "pro" then "arguments supporting: " ++ motion
  else "arguments against: " ++ motion

/-- Python truthiness of the optional api key: `not tavily_api_key` is
true when the key is absent or the empty string. -/
def keyMissing : Option String → Bool
  | none => true
  | some s => s = ""

/-- Embedding of `gather_evidence` (evidence.py, lines 160-212): with
no usable api key, returns empty evidence immediately with no calls;
otherwise searches (max_results defaulting to 8), returns
`⟨query, []⟩` on zero results, and otherwise summarizes and returns
the populated evidence.  Also returns all network calls issued. -/
def gather_evidence (tavily : TavilyOracle) (llm : LlmOracle)
    (motion side : String) (tavily_api_key : Option String) (model : String) :
    GatheredEvidence × EvidenceEffects :=
  if keyMissing tavily_api_key then
    (⟨"", []⟩, ⟨[], []⟩)
  else
    let query := gatherQuery motion side
    let sr := search_web_for_evidence tavily motion side 8
    if sr.1 = [] then
      (⟨query, []⟩, ⟨sr.2, []⟩)
    else
      let sm := summarize_sources llm sr.1 motion side model
      (⟨query, sm.1⟩, ⟨sr.2, sm.2⟩)

/-! ## Auxiliary lemma for the raw pipeline -/

theorem buildParas_keeps_empty (parse : String → Option String) (fetch : Fetcher)
    (raws : List RawParagraph) :
    ∀ ps, buildParas parse fetch raws = .ok ps →
      (∃ p ∈ raws, p.references = []) → ∃ q ∈ ps, q.references = [] := by
  induction raws with
  | nil => intro ps _ he; simp at he
  | cons a raws ih =>
      intro ps h he
      simp only [buildParas] at h
      cases hb : buildRefs parse fetch a.references with
      | error e => rw [hb] at h; exact absurd h (by simp)
      | ok refs =>
          rw [hb] at h
          cases hq : buildParas parse fetch raws with
          | error e => rw [hq] at h; exact absurd h (by simp)
          | ok rest =>
              rw [hq] at h
              have hps : ps = ⟨a.text, refs⟩ :: rest := by simpa using h.symm
              subst hps
              obtain ⟨p, hp, hpe⟩ := he
              rcases List.mem_cons.mp hp with rfl | hp'
              · rw [hpe] at hb
                simp only [buildRefs, Except.ok.injEq] at hb
                exact ⟨⟨p.text, refs⟩, List.mem_cons_self _ _, by simp [← hb]⟩
              · obtain ⟨q, hq1, hq2⟩ := ih rest hq ⟨p, hp', hpe⟩
                exact ⟨q, List.mem_cons_of_mem _ hq1, hq2⟩

/-! ## Claim theorems -/

/-- C2: a successfully constructed `ReferencedParagraphs` or
`EvidenceBasedResponse` has no URL occurring twice among the
references of all its paragraphs taken together, and constructing
either variant with a duplicated URL anywhere in one response raises a
validation error. -/
theorem unique_urls_across_paragraphs (ps : List ReferencedParagraph)
    (qs : List EvidenceBasedParagraph) :
    ((∃ r, mkReferencedParagraphs ps = .ok r) → (allUrls ps).Nodup)
    ∧ (¬ (allUrls ps).Nodup → ∃ e, mkReferencedParagraphs ps = .error e)
    ∧ ((∃ r, mkEvidenceBasedResponse qs = .ok r) → (allEvUrls qs).Nodup)
    ∧ (¬ (allEvUrls qs).Nodup → ∃ e, mkEvidenceBasedResponse qs = .error e) := by
  refine ⟨?_, ?_, ?_, ?_⟩
  · intro h; exact ((mkReferencedParagraphs_ok_iff ps).mp h).2
  · intro h
    apply exists_error_of_not_ok
    intro hok
    exact h ((mkReferencedParagraphs_ok_iff ps).mp hok).2
  · intro h; exact (mkEvidenceBasedResponse_ok_iff qs).mp h
  · intro h
    apply exists_error_of_not_ok
    intro hok
    exact h ((mkEvidenceBasedResponse_ok_iff qs).mp hok)

/-- C3: every paragraph of a successfully constructed reference-bearing
response has at least one reference: `ReferencedParagraphs`
construction rejects any empty references list, and
`EvidenceBasedParagraph` construction succeeds exactly when the
references list has length at least 1. -/
theorem nonempty_references_required (ps : List ReferencedParagraph)
    (t : String) (rs : List EvidenceBasedReference) :
    ((∃ r, mkReferencedParagraphs ps = .ok r) → ∀ p ∈ ps, p.references ≠ [])
    ∧ ((∃ p ∈ ps, p.references = []) → ∃ e, mkReferencedParagraphs ps = .error e)
    ∧ ((∃ q, mkEvidenceBasedParagraph t rs = .ok q) ↔ 1 ≤ rs.length) := by
  refine ⟨?_, ?_, ?_⟩
  · intro h; exact ((mkReferencedParagraphs_ok_iff ps).mp h).1
  · rintro ⟨p, hp, hpe⟩
    apply exists_error_of_not_ok
    rintro ⟨r, hok⟩
    exact ((mkReferencedParagraphs_ok_iff ps).mp ⟨r, hok⟩).1 p hp hpe
  · constructor
    · rintro ⟨q, hq⟩
      unfold mkEvidenceBasedParagraph at hq
      by_cases hn : 1 ≤ rs.length
      · exact hn
      · rw [if_neg hn] at hq; exact absurd hq (by simp)
    · intro hn
      exact ⟨⟨t, rs⟩, by unfold mkEvidenceBasedParagraph; rw [if_pos hn]⟩

/-- C4 counterexample: an `EvidenceBasedResponse` citing a URL that
fails the reachability check (every request answers 404) is
nevertheless constructed successfully — its references undergo no
reachability validation. -/
theorem evidence_reachability_not_validated_cex :
    mkEvidenceBasedResponse
        [⟨"text", [⟨"https://dead.example.com/a", none, "claim"⟩]⟩] =
      .ok ⟨[⟨"text", [⟨"https://dead.example.com/a", none, "claim"⟩]⟩]⟩
    ∧ (validate_url (fun _ => .ok 404) "https://dead.example.com/a").1.isOk
        = false := by
  constructor
  · rfl
  · rfl

/-- C4 (amended): constructing an `EvidenceBasedResponse` involves no
reachability validation of its reference URLs: it succeeds exactly
when the cited URLs are globally unique across its paragraphs,
regardless of any URL's reachability. -/
theorem evidence_response_validity_is_structural (qs : List EvidenceBasedParagraph) :
    (∃ r, mkEvidenceBasedResponse qs = .ok r) ↔ (allEvUrls qs).Nodup :=
  mkEvidenceBasedResponse_ok_iff qs

/-- C5: with no usable search credential, `gather_evidence` returns
`GatheredEvidence ⟨"", []⟩` immediately and issues no Tavily and no
completion calls. -/
theorem gather_evidence_no_credential (tavily : TavilyOracle) (llm : LlmOracle)
    (motion side : String) (key : Option String) (model : String)
    (h : keyMissing key = true) :
    gather_evidence tavily llm motion side key model = (⟨"", []⟩, ⟨[], []⟩) := by
  unfold gather_evidence
  simp [h]

theorem gather_evidence_no_credential_witness :
    keyMissing none = true ∧
      gather_evidence (fun _ => []) (fun _ => []) "m" "pro" none "mod" =
        (⟨"", []⟩, ⟨[], []⟩) :=
  ⟨rfl, gather_evidence_no_credential (fun _ => []) (fun _ => []) "m" "pro" none "mod" rfl⟩

/-- C6 counterexample: with a credential present and zero results,
`query_used` is "arguments supporting: m" while the query the Source
Acquirer builds and sends is "arguments supporting: m evidence
research studies" — the two differ, refuting the claim that
`query_used` equals the acquirer's query. -/
theorem gather_evidence_query_mismatch_cex :
    (gather_evidence (fun _ => []) (fun _ => []) "m" "pro" (some "k") "mod").1.query_used
        = "arguments supporting: m"
    ∧ ((gather_evidence (fun _ => []) (fun _ => []) "m" "pro" (some "k") "mod").2.tavilyCalls.map
          TavilySearchRequest.query
        = ["arguments supporting: m evidence research studies"])
    ∧ "arguments supporting: m" ≠ "arguments supporting: m evidence research studies" := by
  refine ⟨rfl, rfl, ?_⟩
  decide

/-- C6 (amended): whenever a credential is present, `query_used` is the
query `gather_evidence` itself builds — "arguments supporting: <motion>"
for pro and "arguments against: <motion>" for con, with no
" evidence research studies" suffix — in both the zero-result and the
populated case, while the single Tavily request issued carries the
Source Acquirer's suffixed query. -/
theorem gather_evidence_query_used (tavily : TavilyOracle) (llm : LlmOracle)
    (motion side : String) (key : Option String) (model : String)
    (h : keyMissing key = false) :
    (gather_evidence tavily llm motion side key model).1.query_used =
        gatherQuery motion side
    ∧ (gather_evidence tavily llm motion side key model).2.tavilyCalls =
        [{ query := acquirerQuery motion side, search_depth := "advanced",
           max_results := 8, include_raw_content := false,
           include_domains := includeDomains }] := by
  unfold gather_evidence
  rw [h]
  simp only [Bool.false_eq_true, if_false]
  refine ⟨?_, ?_⟩ <;> · split <;> rfl

theorem gather_evidence_query_used_witness :
    keyMissing (some "k") = false ∧
      ((gather_evidence (fun _ => []) (fun _ => []) "m" "pro" (some "k") "mod").1.query_used =
          gatherQuery "m" "pro"
        ∧ (gather_evidence (fun _ => []) (fun _ => []) "m" "pro" (some "k") "mod").2.tavilyCalls =
          [{ query := acquirerQuery "m" "pro", search_depth := "advanced",
             max_results := 8, include_raw_content := false,
             include_domains := includeDomains }]) :=
  ⟨rfl, gather_evidence_query_used (fun _ => []) (fun _ => []) "m" "pro" (some "k") "mod" rfl⟩

/-- C7: `summarize_sources` on an empty list of search results returns
the empty list and issues no completion call, for every oracle,
motion, side and model. -/
theorem summarize_sources_empty_short_circuit (llm : LlmOracle)
    (motion side model : String) :
    summarize_sources llm [] motion side model = ([], []) := rfl

/-- C8: constructing a `ReferencedParagraphs` or
`EvidenceBasedResponse` with any paragraph violating an invariant
(a reference that fails construction, an empty references list, or a
duplicate URL) yields an error and no response object; a successful
construction contains every paragraph with all invariants holding. -/
theorem atomic_rejection (parse : String → Option String) (fetch : Fetcher)
    (raws : List RawParagraph) (eraws : List RawEvidenceParagraph) :
    (∀ res, mkReferencedParagraphsRaw parse fetch raws = .ok res →
        res.paragraphs.length = raws.length
        ∧ (∀ p ∈ res.paragraphs, p.references ≠ [])
        ∧ (allUrls res.paragraphs).Nodup
        ∧ ∀ p ∈ raws, ∀ r ∈ p.references, ∃ ref, (mkReference parse fetch r).1 = .ok ref)
    ∧ ((∃ p ∈ raws, ∃ r ∈ p.references, ∃ e, (mkReference parse fetch r).1 = .error e) →
        ∃ e, mkReferencedParagraphsRaw parse fetch raws = .error e)
    ∧ ((∃ p ∈ raws, p.references = []) →
        ∃ e, mkReferencedParagraphsRaw parse fetch raws = .error e)
    ∧ (∀ ps, buildParas parse fetch raws = .ok ps → ¬ (allUrls ps).Nodup →
        ∃ e, mkReferencedParagraphsRaw parse fetch raws = .error e)
    ∧ (∀ res, mkEvidenceBasedResponseRaw eraws = .ok res →
        res.paragraphs.length = eraws.length
        ∧ (∀ q ∈ res.paragraphs, 1 ≤ q.references.length)
        ∧ (allEvUrls res.paragraphs).Nodup)
    ∧ ((∃ p ∈ eraws, p.references = []) →
        ∃ e, mkEvidenceBasedResponseRaw eraws = .error e)
    ∧ (∀ ps, buildEvParas eraws = .ok ps → ¬ (allEvUrls ps).Nodup →
        ∃ e, mkEvidenceBasedResponseRaw eraws = .error e) := by
  refine ⟨?_, ?_, ?_, ?_, ?_, ?_, ?_⟩
  · intro res hres
    unfold mkReferencedParagraphsRaw at hres
    cases hb : buildParas parse fetch raws with
    | error e => rw [hb] at hres; exact absurd hres (by simp)
    | ok ps =>
        rw [hb] at hres
        have hval := mkReferencedParagraphs_ok_val ps res hres
        obtain ⟨hlen, hall⟩ := of_buildParas_ok parse fetch raws ps hb
        obtain ⟨hne, hnd⟩ := (mkReferencedParagraphs_ok_iff ps).mp ⟨res, hres⟩
        subst hval
        exact ⟨hlen, hne, hnd, hall⟩
  · intro hviol
    apply exists_error_of_not_ok
    rintro ⟨res, hres⟩
    unfold mkReferencedParagraphsRaw at hres
    cases hb : buildParas parse fetch raws with
    | error e => rw [hb] at hres; exact absurd hres (by simp)
    | ok ps =>
        obtain ⟨p, hp, r, hr, e, he⟩ := hviol
        obtain ⟨_, hall⟩ := of_buildParas_ok parse fetch raws ps hb
        obtain ⟨ref, href⟩ := hall p hp r hr
        rw [he] at href
        exact absurd href (by simp)
  · intro hviol
    apply exists_error_of_not_ok
    rintro ⟨res, hres⟩
    unfold mkReferencedParagraphsRaw at hres
    cases hb : buildParas parse fetch raws with
    | error e => rw [hb] at hres; exact absurd hres (by simp)
    | ok ps =>
        rw [hb] at hres
        obtain ⟨q, hq, hqe⟩ := buildParas_keeps_empty parse fetch raws ps hb hviol
        exact ((mkReferencedParagraphs_ok_iff ps).mp ⟨res, hres⟩).1 q hq hqe
  · intro ps hb hnd
    apply exists_error_of_not_ok
    rintro ⟨res, hres⟩
    unfold mkReferencedParagraphsRaw at hres
    rw [hb] at hres
    exact hnd ((mkReferencedParagraphs_ok_iff ps).mp ⟨res, hres⟩).2
  · intro res hres
    unfold mkEvidenceBasedResponseRaw at hres
    cases hb : buildEvParas eraws with
    | error e => rw [hb] at hres; exact absurd hres (by simp)
    | ok ps =>
        rw [hb] at hres
        have hval := mkEvidenceBasedResponse_ok_val ps res hres
        obtain ⟨hlen, hmin, _⟩ := of_buildEvParas_ok eraws ps hb
        have hnd := (mkEvidenceBasedResponse_ok_iff ps).mp ⟨res, hres⟩
        subst hval
        exact ⟨hlen, hmin, hnd⟩
  · rintro ⟨p, hp, hpe⟩
    apply exists_error_of_not_ok
    rintro ⟨res, hres⟩
    unfold mkEvidenceBasedResponseRaw at hres
    cases hb : buildEvParas eraws with
    | error e => rw [hb] at hres; exact absurd hres (by simp)
    | ok ps =>
        obtain ⟨_, _, hne⟩ := of_buildEvParas_ok eraws ps hb
        exact hne p hp hpe
  · intro ps hb hnd
    apply exists_error_of_not_ok
    rintro ⟨res, hres⟩
    unfold mkEvidenceBasedResponseRaw at hres
    rw [hb] at hres
    exact hnd ((mkEvidenceBasedResponse_ok_iff ps).mp ⟨res, hres⟩)

/-- C9: a standalone `ReferencedParagraph` constructs successfully with
no references (the field defaults to the empty list); the
at-least-one-reference requirement only bites when a
`ReferencedParagraphs` container is constructed around it. -/
theorem standalone_paragraph_allows_empty_references (t : String) :
    mkReferencedParagraph t none = ⟨t, []⟩
    ∧ ∃ e, mkReferencedParagraphs [mkReferencedParagraph t none] = .error e := by
  exact ⟨rfl, ⟨"references must not be empty", rfl⟩⟩

/-- C10: `EvidenceBasedReference.url` is an unvalidated plain string —
construction succeeds for every string — whereas a `Reference` url
must parse as an AnyUrl first: when the parse fails, construction is
rejected and no reachability request is ever issued. -/
theorem evidence_reference_url_unvalidated (parse : String → Option String)
    (fetch : Fetcher) (url claim : String) (title : Option String) :
    mkEvidenceBasedReference url title claim = .ok ⟨url, title, claim⟩
    ∧ (parse url = none →
        mkReference parse fetch ⟨title, url⟩ =
          (.error ("Input is not a valid URL: " ++ url), [])) := by
  refine ⟨rfl, ?_⟩
  intro hp
  simp [mkReference, hp]

end DebateAgent
